import Mathlib

set_option autoImplicit false
set_option maxRecDepth 8000

/-!
# Verification of the 1brc-go measurement aggregation program

Shallow embedding of `src/main.go` (the v2 concurrent implementation, entry
point `ProcessFile`) and `src/unnamed/part_000` (the naive sequential
implementation, entry point `naiveImplementation`).

Modelling conventions:
* Go `float64` values are embedded as `GoFloat`: exact rationals for finite
  values plus explicit infinities and NaN.  Finite arithmetic is kept exact
  (no rounding to 53-bit mantissas, no overflow of finite sums or products);
  all concrete inputs used in theorems below are dyadic rationals of small
  height on which the corresponding IEEE-754 operations are themselves exact,
  so the model and the program agree on them.  Signed zero is not
  distinguished.
* Go strings and byte slices are embedded as `List Char`; the station files
  are ASCII, where Go's byte-wise string order coincides with the `Char`
  order used here.
* `bufio.Reader.Read` into a buffer of size `bs` is modelled as returning
  exactly `min bs remaining` bytes; `bufio.Reader.ReadBytes '\n'` is modelled
  by splitting at the first newline.
* The concurrent goroutines of `ProcessFile` are modelled sequentially in
  dispatch order (each chunk's fold into the map runs atomically); the
  separate race model at the end of the definitions exposes the individual
  `LoadOrStore` / `Store` steps of `StatsMap.Set` so that interleavings of
  two racing `Set` calls on the same key can be examined.
-/

/-- The line terminator used throughout both implementations. -/
def nl : Char := '\n'

/-- Embedding of Go `float64` values: exact finite rationals, infinities
and NaN.  See the module docstring for the idealizations involved. -/
inductive GoFloat where
  | finite (q : ℚ)
  | inf (pos : Bool)
  | nan
deriving DecidableEq, Repr

/-- Go `math.Min`: NaN if either argument is NaN, negative infinity
dominates, positive infinity is neutral, otherwise the rational minimum. -/
def goMin : GoFloat → GoFloat → GoFloat
  | .nan, _ => .nan
  | _, .nan => .nan
  | .inf false, _ => .inf false
  | _, .inf false => .inf false
  | .inf true, y => y
  | x, .inf true => x
  | .finite a, .finite b => .finite (if a ≤ b then a else b)

/-- Go `math.Max`: NaN if either argument is NaN, positive infinity
dominates, negative infinity is neutral, otherwise the rational maximum. -/
def goMax : GoFloat → GoFloat → GoFloat
  | .nan, _ => .nan
  | _, .nan => .nan
  | .inf true, _ => .inf true
  | _, .inf true => .inf true
  | .inf false, y => y
  | x, .inf false => x
  | .finite a, .finite b => .finite (if a ≤ b then b else a)

/-- Go `float64` addition (finite addition kept exact; `+Inf + -Inf = NaN`). -/
def goAdd : GoFloat → GoFloat → GoFloat
  | .nan, _ => .nan
  | _, .nan => .nan
  | .inf s, .inf t => if s = t then .inf s else .nan
  | .inf s, .finite _ => .inf s
  | .finite _, .inf t => .inf t
  | .finite a, .finite b => .finite (a + b)

/-- Rounding to the nearest integer, halves away from zero: the behaviour of
Go `math.Round` on finite values. -/
def roundHalfAway (q : ℚ) : ℤ :=
  if q < 0 then -⌊-q + 1 / 2⌋ else ⌊q + 1 / 2⌋

/-- Rounding to the nearest integer, halves to the even integer: the
behaviour of Go's fixed-precision decimal formatting (`%.1f`, after scaling
by ten) at a representable tie. -/
def roundHalfEven (q : ℚ) : ℤ :=
  if q - ⌊q⌋ < 1 / 2 then ⌊q⌋
  else if 1 / 2 < q - ⌊q⌋ then ⌊q⌋ + 1
  else if ⌊q⌋ % 2 = 0 then ⌊q⌋ else ⌊q⌋ + 1

/-- The composite `math.Round(x*10) / 10` computed by `StationStats.String`
on each of min, max and sum. -/
def goRoundTenths : GoFloat → GoFloat
  | .finite q => .finite ((roundHalfAway (q * 10) : ℚ) / 10)
  | .inf s => .inf s
  | .nan => .nan

/-- Go `float64` division by `float64(count)` for an integer count. -/
def goDivInt (x : GoFloat) (c : ℤ) : GoFloat :=
  match x with
  | .nan => .nan
  | .inf s => if 0 ≤ c then .inf s else .inf (!s)
  | .finite q =>
    if c = 0 then (if q = 0 then .nan else .inf (decide (0 < q)))
    else .finite (q / (c : ℚ))

/-- Renders `n` tenths as a decimal string with one fractional digit,
matching `%.1f` output for the multiple-of-one-tenth case. -/
def formatTenths (n : ℤ) : String :=
  (if n < 0 then "-" else "") ++ toString (n.natAbs / 10) ++ "." ++ toString (n.natAbs % 10)

/-- Go `fmt.Sprintf("%.1f", x)`: fixed formatting with one fractional digit.
The exact value of the argument is rounded to tenths with ties to even. -/
def formatF1 : GoFloat → String
  | .finite q => formatTenths (roundHalfEven (q * 10))
  | .inf true => "+Inf"
  | .inf false => "-Inf"
  | .nan => "NaN"

/-! ## Record parsing (`NewMeasurement` and `strconv.ParseFloat`) -/

/-- ASCII lower-casing, used for the case-insensitive special forms of
`strconv.ParseFloat`. -/
def asciiLower (c : Char) : Char :=
  if 'A' ≤ c ∧ c ≤ 'Z' then Char.ofNat (c.toNat + 32) else c

/-- Case-insensitive comparison of a token against a keyword. -/
def eqIgnoreCase (s : List Char) (t : List Char) : Bool :=
  s.map asciiLower == t

/-- The special forms accepted by `strconv.ParseFloat`: optionally signed
`inf` / `infinity` and unsigned `nan`, case-insensitively, consuming the
whole token. -/
def parseSpecial (s : List Char) : Option GoFloat :=
  match s with
  | [] => none
  | c :: t =>
    if c = '+' ∨ c = '-' then
      if eqIgnoreCase t "inf".toList ∨ eqIgnoreCase t "infinity".toList then
        some (.inf (c = '+'))
      else none
    else if eqIgnoreCase s "inf".toList ∨ eqIgnoreCase s "infinity".toList then
      some (.inf true)
    else if eqIgnoreCase s "nan".toList then some .nan
    else none

/-- Numeric value of a string of decimal digits. -/
def digitsVal (ds : List Char) : ℕ :=
  ds.foldl (fun acc c => 10 * acc + (c.toNat - '0'.toNat)) 0

/-- Largest finite `float64`, `math.MaxFloat64 = (2^53 - 1) * 2^971`, as an
explicit numeral so that kernel evaluation never unfolds a deep power;
`maxFloat64_eq` certifies the value. -/
def maxFloat64 : ℚ := 179769313486231570814527423731704356798070567525844996598917476803157260780028538760589558632766878171540458953514382464234321326889464182768467546703537516986049910576551282076245490090389328944075868508455133942304583236903222948165808559332123348274797826204144723168738177180919299881250404026184124858368

/-- Smallest positive `float64`, `math.SmallestNonzeroFloat64 = 2^(-1074)`.
Note this is a tiny positive number, not the most negative float. -/
def smallestNonzeroFloat64 : ℚ :=
  1 / 202402253307310618352495346718917307049556649764142118356901358027430339567995346891960383701437124495187077864316811911389808737385793476867013399940738509921517424276566361364466907742093216341239767678472745068562007483424692698618103355649159556340810056512358769552333414615230502532186327508646006263307707741093494784

/-- Decimal number syntax of `strconv.ParseFloat` (sign, mantissa digits
with at most one dot, optional exponent), returning the exact rational
value.  The hexadecimal-float and digit-separating-underscore forms of the
Go syntax are omitted: no line of the data files and no claim uses them.
Values whose magnitude reaches the float64 overflow threshold
`2^1024 - 2^970` are rejected, modelling the `ErrRange` failure;
finite values are otherwise kept exact. -/
def parseDec (s : List Char) : Option ℚ :=
  let sgnSplit : ℚ × List Char :=
    match s with
    | '+' :: t => (1, t)
    | '-' :: t => (-1, t)
    | t => (1, t)
  let sgn := sgnSplit.1
  let s1 := sgnSplit.2
  let d1 := s1.takeWhile Char.isDigit
  let s2 := s1.dropWhile Char.isDigit
  let dotSplit : List Char × List Char :=
    match s2 with
    | '.' :: t => (t.takeWhile Char.isDigit, t.dropWhile Char.isDigit)
    | _ => ([], s2)
  let d2 := dotSplit.1
  let s3 := dotSplit.2
  if d1 = [] ∧ d2 = [] then none
  else
    let mantissa : ℚ := sgn * (digitsVal (d1 ++ d2) : ℚ)
    let value : Option ℚ :=
      match s3 with
      | [] => some (mantissa * (10 : ℚ) ^ (-(d2.length : ℤ)))
      | e :: t =>
        if e = 'e' ∨ e = 'E' then
          let esgnSplit : ℤ × List Char :=
            match t with
            | '+' :: u => (1, u)
            | '-' :: u => (-1, u)
            | u => (1, u)
          let ed := esgnSplit.2.takeWhile Char.isDigit
          let rest := esgnSplit.2.dropWhile Char.isDigit
          if ed = [] ∨ rest ≠ [] then none
          else some (mantissa * (10 : ℚ) ^ (esgnSplit.1 * (digitsVal ed : ℤ) - (d2.length : ℤ)))
        else none
    match value with
    | none => none
    | some q =>
      if (179769313486231580793728971405303415079934132710037826936173778980444968292764750946649017977587207096330286416692887910946555547851940402630657488671505820681908902000708383676273854845817711531764475730270069855571366959622842914819860834936475292719074168444365510704342711559699508093042880177904174497792 : ℚ) ≤ |q|
      then none else some q

/-- `strconv.ParseFloat(s, 64)`: the special forms, otherwise the decimal
number syntax. -/
def parseFloat (s : List Char) : Option GoFloat :=
  match parseSpecial s with
  | some v => some v
  | none => (parseDec s).map .finite

/-- `Measurement` struct of both source files: one station/value record. -/
structure Measurement where
  Station : List Char
  Value : GoFloat
deriving DecidableEq, Repr

/-- `NewMeasurement`: split on `';'`; exactly two tokens whose second parses
as a float, otherwise an error (modelled as `none`). -/
def NewMeasurement (s : List Char) : Option Measurement :=
  match s.splitOn ';' with
  | [a, b] => (parseFloat b).map (fun v => ⟨a, v⟩)
  | _ => none

/-! ## Station statistics -/

/-- `StationStats` struct: accumulator for one station. -/
structure StationStats where
  Min : GoFloat
  Max : GoFloat
  Sum : GoFloat
  Count : ℤ
deriving DecidableEq, Repr

/-- `NewStationStats`: the seed accumulator.  The source seeds `Min` with
`math.MaxFloat64` and `Max` with `math.SmallestNonzeroFloat64` (a tiny
positive number). -/
def NewStationStats : StationStats :=
  { Min := .finite maxFloat64
    Max := .finite smallestNonzeroFloat64
    Sum := .finite 0
    Count := 0 }

/-- The update body shared by both `Set` methods:
`Min = min(Min, v); Max = max(Max, v); Sum += v; Count += 1`. -/
def applyValue (stats : StationStats) (v : GoFloat) : StationStats :=
  { Min := goMin stats.Min v
    Max := goMax stats.Max v
    Sum := goAdd stats.Sum v
    Count := stats.Count + 1 }

/-- The station map, embedded as an association list with unique keys (map
iteration order is irrelevant: reporting sorts the keys). -/
abbrev AssocStats := List (List Char × StationStats)

/-- Map lookup. -/
def lookupStats : AssocStats → List Char → Option StationStats
  | [], _ => none
  | (k', v) :: rest, k => if k' = k then some v else lookupStats rest k

/-- Map store: replace the binding if the key is present, else append. -/
def storeStats : AssocStats → List Char → StationStats → AssocStats
  | [], k, v => [(k, v)]
  | (k', v') :: rest, k, v =>
    if k' = k then (k, v) :: rest else (k', v') :: storeStats rest k v

/-- `StatsMap.Set` (both files), run atomically: load the existing stats or
a fresh `NewStationStats`, apply the update, store the result. -/
def statsMapSet (m : AssocStats) (msr : Measurement) : AssocStats :=
  storeStats m msr.Station
    (applyValue ((lookupStats m msr.Station).getD NewStationStats) msr.Value)

/-- The count recorded for a key, zero when the key is absent. -/
def countOfKey (m : AssocStats) (k : List Char) : ℤ :=
  ((lookupStats m k).map StationStats.Count).getD 0

/-! ## Report building -/

/-- Go string `<` comparison (byte-wise; coincides with `Char` order on the
ASCII keys in use). -/
def lexLt : List Char → List Char → Bool
  | [], [] => false
  | [], _ :: _ => true
  | _ :: _, [] => false
  | a :: s, b :: t => a < b || (a = b && lexLt s t)

/-- Insertion into a sorted key list, for `sort.Strings`. -/
def insertKey (k : List Char) : List (List Char) → List (List Char)
  | [] => [k]
  | x :: xs => if lexLt k x then k :: x :: xs else x :: insertKey k xs

/-- `sort.Strings`: ascending lexicographic sort of the key list. -/
def sortKeys (ks : List (List Char)) : List (List Char) :=
  ks.foldr insertKey []

/-- The `String()` method of `StationStats`: round min, max and sum to
tenths (`math.Round(x*10)/10`), then format `min/(roundedSum/count)/max`
with `%.1f` each. -/
def statsString (s : StationStats) : String :=
  formatF1 (goRoundTenths s.Min) ++ "/" ++
    formatF1 (goDivInt (goRoundTenths s.Sum) s.Count) ++ "/" ++
    formatF1 (goRoundTenths s.Max)

/-- The report loop of both files: sort the keys, then concatenate
`"<key>: <stats> "` for each key in order (the final `fmt.Println` newline
is not part of the string). -/
def report (m : AssocStats) : String :=
  ((sortKeys (m.map Prod.fst)).map
    (fun k => String.mk k ++ ": " ++ statsString ((lookupStats m k).getD NewStationStats) ++ " ")
  ).foldl (· ++ ·) ""

/-! ## Chunked file reading

One loop iteration of `ProcessFile` (`src/main.go`): read a block of at
most `bs` bytes, then `ReadBytes('\n')` for the rest of the current line.
If the newline is found, the tail minus its final newline byte is appended
to the chunk; if instead end-of-stream is hit first (`err == io.EOF`), the
consumed tail is discarded and the chunk is the bare block. -/
def oneChunkV2 (bs : ℕ) (input : List Char) : List Char × List Char :=
  let block := input.take bs
  let rest := input.drop bs
  match rest.dropWhile (· ≠ nl) with
  | [] => (block, [])
  | _ :: after => (block ++ rest.takeWhile (· ≠ nl), after)

/-- One loop iteration of `naiveImplementation` (`src/unnamed/part_000`):
identical to `oneChunkV2` except that the found tail is appended including
its newline byte. -/
def oneChunkNaive (bs : ℕ) (input : List Char) : List Char × List Char :=
  let block := input.take bs
  let rest := input.drop bs
  match rest.dropWhile (· ≠ nl) with
  | [] => (block, [])
  | _ :: after => (block ++ rest.takeWhile (· ≠ nl) ++ [nl], after)

/-- Fuel-indexed chunking loop; `fuel ≥ input.length` always suffices
(each iteration consumes at least one byte), so the wrappers below pass
`input.length` and the loop is structurally recursive and executable. -/
def readChunksAux (one : ℕ → List Char → List Char × List Char) (bs : ℕ) :
    ℕ → List Char → List (List Char)
  | 0, _ => []
  | _, [] => []
  | fuel + 1, c :: cs =>
    (one bs (c :: cs)).1 :: readChunksAux one bs fuel (one bs (c :: cs)).2

/-- The chunk sequence read by the main loop of `ProcessFile`. -/
def readChunksV2 (bs : ℕ) (input : List Char) : List (List Char) :=
  readChunksAux oneChunkV2 bs input.length input

/-- The chunk sequence read by the main loop of `naiveImplementation`. -/
def readChunksNaive (bs : ℕ) (input : List Char) : List (List Char) :=
  readChunksAux oneChunkNaive bs input.length input

/-! ## Per-chunk line processing -/

/-- The per-chunk line loop of both files, with its reporting flag: stop at
the first empty line (silently) or at the first line `NewMeasurement`
rejects (reporting the failure, flag `true`); every successfully parsed
line before that point is emitted in order. -/
def processLinesE : List (List Char) → List Measurement × Bool
  | [] => ([], false)
  | l :: ls =>
    if l = [] then ([], false)
    else
      match NewMeasurement l with
      | none => ([], true)
      | some m =>
        let r := processLinesE ls
        (m :: r.1, r.2)

/-- The measurements a chunk's line loop applies to the map. -/
def processLines (ls : List (List Char)) : List Measurement :=
  (processLinesE ls).1

/-- Split a chunk into lines (`strings.Split(data, "\n")`) and run the line
loop. -/
def chunkMeasurements (c : List Char) : List Measurement :=
  processLines (c.splitOn nl)

/-- The non-empty lines contained in a chunk, used to state chunk
coverage. -/
def chunkLines (c : List Char) : List (List Char) :=
  (c.splitOn nl).filter (fun l => !l.isEmpty)

/-! ## End-to-end pipelines -/

/-- All measurements `ProcessFile` applies to the map, in application
order (chunks in dispatch order, the goroutines modelled sequentially). -/
def runMeasurementsV2 (bs : ℕ) (input : List Char) : List Measurement :=
  (readChunksV2 bs input).flatMap chunkMeasurements

/-- All measurements `naiveImplementation` applies to the map, in order. -/
def runMeasurementsNaive (bs : ℕ) (input : List Char) : List Measurement :=
  (readChunksNaive bs input).flatMap chunkMeasurements

/-- The station map built by `ProcessFile`. -/
def runStatsV2 (bs : ℕ) (input : List Char) : AssocStats :=
  (runMeasurementsV2 bs input).foldl statsMapSet []

/-- The station map built by `naiveImplementation`. -/
def runStatsNaive (bs : ℕ) (input : List Char) : AssocStats :=
  (runMeasurementsNaive bs input).foldl statsMapSet []

/-- `ProcessFile` (`src/main.go`) as a function from the file contents and
the read-buffer size to the printed report line. -/
def ProcessFile (bs : ℕ) (input : List Char) : String :=
  report (runStatsV2 bs input)

/-- `naiveImplementation` (`src/unnamed/part_000`) as a function from the
file contents and the read-buffer size to the printed report line. -/
def naiveImplementation (bs : ℕ) (input : List Char) : String :=
  report (runStatsNaive bs input)

/-- Observable outcome of one whole run of `ProcessFile`, including the
error prints. -/
structure RunResult where
  openErrorReported : Bool
  readErrorReported : Bool
  reportPrinted : Bool
  reportLine : String
deriving DecidableEq, Repr

/-- `ProcessFile` including its file-open path.  When `os.Open` fails the
code prints the error but does not return; `bufio` then reads from the nil
`*os.File`, whose `Read` returns `ErrInvalid` (not `io.EOF`), so the first
loop iteration prints that error and breaks, and the empty report line is
still printed.  A successful open behaves as `ProcessFile` on the file
contents. -/
def ProcessFileRun (file : Option (List Char)) (bs : ℕ) : RunResult :=
  match file with
  | none =>
    { openErrorReported := true
      readErrorReported := true
      reportPrinted := true
      reportLine := report [] }
  | some input =>
    { openErrorReported := false
      readErrorReported := false
      reportPrinted := true
      reportLine := ProcessFile bs input }

/-! ## Race model of `StatsMap.Set` (src/main.go lines 77-85)

`Set` performs `LoadOrStore` (one atomic `sync.Map` operation) and then,
after computing the updated struct locally, an unconditional `Store`
(another atomic operation).  Between the two, another goroutine may run
either of its own steps.  The model below executes two `Set` calls for the
same key, one per thread, under an explicit schedule. -/

/-- `sync.Map.LoadOrStore(key, NewStationStats())` for the single key under
consideration: returns the updated entry and the value the caller
observes. -/
def loadOrStore (entry : Option StationStats) : Option StationStats × StationStats :=
  match entry with
  | none => (some NewStationStats, NewStationStats)
  | some s => (some s, s)

/-- State of the race: the map entry and each thread's program counter
(`0`: before `LoadOrStore`; `1`: update computed, before `Store`; `2`:
done) together with the value it loaded. -/
structure RaceState where
  entry : Option StationStats
  pc1 : ℕ
  loaded1 : StationStats
  pc2 : ℕ
  loaded2 : StationStats
deriving Repr

/-- Initial race state: key absent, both threads before `LoadOrStore`. -/
def initRace : RaceState :=
  ⟨none, 0, NewStationStats, 0, NewStationStats⟩

/-- Run one atomic step of thread 1 (`t = false`) or thread 2 (`t = true`),
where thread `i` is executing `Set` with value `vᵢ` for the same key. -/
def raceStep (v1 v2 : GoFloat) (st : RaceState) (t : Bool) : RaceState :=
  match t with
  | false =>
    match st.pc1 with
    | 0 =>
      let r := loadOrStore st.entry
      { st with entry := r.1, loaded1 := r.2, pc1 := 1 }
    | 1 => { st with entry := some (applyValue st.loaded1 v1), pc1 := 2 }
    | _ => st
  | true =>
    match st.pc2 with
    | 0 =>
      let r := loadOrStore st.entry
      { st with entry := r.1, loaded2 := r.2, pc2 := 1 }
    | 1 => { st with entry := some (applyValue st.loaded2 v2), pc2 := 2 }
    | _ => st

/-- Execute two racing `Set` calls under the given schedule. -/
def runRace (v1 v2 : GoFloat) (sched : List Bool) : RaceState :=
  sched.foldl (raceStep v1 v2) initRace

/-! ## Spec-side vocabulary for stating the claims -/

/-- A newline-terminated file made of the given lines:
`l₁ ++ "\n" ++ l₂ ++ "\n" ++ ...`. -/
def flattenNL (lines : List (List Char)) : List Char :=
  lines.flatMap (fun l => l ++ [nl])

/-- The same lines joined by newlines without the trailing terminator. -/
def joinNL (lines : List (List Char)) : List Char :=
  [nl].intercalate lines

/-- A line the chunk machinery can carry: non-empty and newline-free. -/
def GoodLine (l : List Char) : Prop := l ≠ [] ∧ nl ∉ l

/-- A well-formed record line: non-empty, newline-free and accepted by
`NewMeasurement`. -/
def WFLine (l : List Char) : Prop := l ≠ [] ∧ nl ∉ l ∧ (NewMeasurement l).isSome

/-- Every line of the file is non-empty and newline-free. -/
def GoodLines (lines : List (List Char)) : Prop := ∀ l ∈ lines, GoodLine l

/-- Every line of the file is a well-formed record. -/
def WFLines (lines : List (List Char)) : Prop := ∀ l ∈ lines, WFLine l

instance : DecidablePred GoodLine := fun l => by unfold GoodLine; infer_instance

instance : DecidablePred WFLine := fun l => by unfold WFLine; infer_instance

instance (lines : List (List Char)) : Decidable (GoodLines lines) :=
  List.decidableBAll _ lines

instance (lines : List (List Char)) : Decidable (WFLines lines) :=
  List.decidableBAll _ lines

/-- The relation between a chunk and the block of input lines it carries:
the chunk is those lines joined by newlines, with (`flattenNL`) or without
(`joinNL`) a trailing newline byte. -/
def ChunkOf (c : List Char) (p : List (List Char)) : Prop :=
  c = joinNL p ∨ c = flattenNL p

/-! ## Lemmas: chunk loop unfolding -/

/-- Each loop iteration of either implementation consumes at least one
byte of the remaining input. -/
theorem oneChunkV2_snd_lt (bs : ℕ) (input : List Char) (h : input ≠ []) :
    (oneChunkV2 bs input).2.length < input.length := by
  have hlen : 0 < input.length := List.length_pos.mpr h
  unfold oneChunkV2
  simp only
  split
  · simpa using hlen
  · rename_i c after heq
    have h1 : (c :: after).length ≤ (input.drop bs).length :=
      heq ▸ (List.dropWhile_sublist _).length_le
    have h2 : (input.drop bs).length ≤ input.length := by
      simp [List.length_drop]
    simp only [List.length_cons] at h1
    simp only
    omega

/-- Same for the naive loop. -/
theorem oneChunkNaive_snd_lt (bs : ℕ) (input : List Char) (h : input ≠ []) :
    (oneChunkNaive bs input).2.length < input.length := by
  have hlen : 0 < input.length := List.length_pos.mpr h
  unfold oneChunkNaive
  simp only
  split
  · simpa using hlen
  · rename_i c after heq
    have h1 : (c :: after).length ≤ (input.drop bs).length :=
      heq ▸ (List.dropWhile_sublist _).length_le
    have h2 : (input.drop bs).length ≤ input.length := by
      simp [List.length_drop]
    simp only [List.length_cons] at h1
    simp only
    omega

/-- The fuel argument of `readChunksAux` is irrelevant as long as it is at
least the input length. -/
theorem readChunksAux_congr (one : ℕ → List Char → List Char × List Char)
    (hlt : ∀ bs input, input ≠ [] → (one bs input).2.length < input.length)
    (bs : ℕ) : ∀ (f1 f2 : ℕ) (input : List Char),
    input.length ≤ f1 → input.length ≤ f2 →
    readChunksAux one bs f1 input = readChunksAux one bs f2 input := by
  intro f1
  induction f1 with
  | zero =>
    intro f2 input h1 _
    have : input = [] := List.length_eq_zero.mp (Nat.le_zero.mp h1)
    subst this
    cases f2 <;> rfl
  | succ g1 ih =>
    intro f2 input h1 h2
    cases input with
    | nil => cases f2 <;> rfl
    | cons c cs =>
      simp only [List.length_cons] at h1 h2
      obtain ⟨g2, rfl⟩ : ∃ k, f2 = k + 1 := ⟨f2 - 1, by omega⟩
      have hstep := hlt bs (c :: cs) (by simp)
      simp only [List.length_cons] at hstep
      simp only [readChunksAux]
      congr 1
      exact ih g2 _ (by omega) (by omega)

/-- Unfolding `readChunksV2` on a non-empty input. -/
theorem readChunksV2_cons (bs : ℕ) (input : List Char) (h : input ≠ []) :
    readChunksV2 bs input =
      (oneChunkV2 bs input).1 :: readChunksV2 bs (oneChunkV2 bs input).2 := by
  cases input with
  | nil => exact absurd rfl h
  | cons c cs =>
    show readChunksAux oneChunkV2 bs (cs.length + 1) (c :: cs) = _
    simp only [readChunksAux]
    congr 1
    exact readChunksAux_congr oneChunkV2 oneChunkV2_snd_lt bs cs.length _ _
      (by have := oneChunkV2_snd_lt bs (c :: cs) (by simp); simp at this; omega)
      (le_refl _)

/-- Unfolding `readChunksNaive` on a non-empty input. -/
theorem readChunksNaive_cons (bs : ℕ) (input : List Char) (h : input ≠ []) :
    readChunksNaive bs input =
      (oneChunkNaive bs input).1 :: readChunksNaive bs (oneChunkNaive bs input).2 := by
  cases input with
  | nil => exact absurd rfl h
  | cons c cs =>
    show readChunksAux oneChunkNaive bs (cs.length + 1) (c :: cs) = _
    simp only [readChunksAux]
    congr 1
    exact readChunksAux_congr oneChunkNaive oneChunkNaive_snd_lt bs cs.length _ _
      (by have := oneChunkNaive_snd_lt bs (c :: cs) (by simp); simp at this; omega)
      (le_refl _)

/-! ## Lemmas: list splitting helpers -/

/-- `takeWhile` over an append whose left part wholly satisfies the
predicate. -/
theorem takeWhile_append_all (p : Char → Bool) (xs ys : List Char)
    (h : ∀ a ∈ xs, p a) : (xs ++ ys).takeWhile p = xs ++ ys.takeWhile p := by
  induction xs with
  | nil => simp
  | cons a xs ih =>
    simp only [List.cons_append, List.takeWhile_cons, h a (by simp)]
    simp [ih (fun b hb => h b (by simp [hb]))]

/-- `dropWhile` over an append whose left part wholly satisfies the
predicate. -/
theorem dropWhile_append_all (p : Char → Bool) (xs ys : List Char)
    (h : ∀ a ∈ xs, p a) : (xs ++ ys).dropWhile p = ys.dropWhile p := by
  induction xs with
  | nil => simp
  | cons a xs ih =>
    simp only [List.cons_append, List.dropWhile_cons, h a (by simp)]
    simp [ih (fun b hb => h b (by simp [hb]))]

/-- `flattenNL` unfolds one line at a time. -/
theorem flattenNL_cons (l : List Char) (lines : List (List Char)) :
    flattenNL (l :: lines) = l ++ nl :: flattenNL lines := by
  simp [flattenNL]

/-- A newline-terminated non-empty file is non-empty. -/
theorem flattenNL_ne_nil (l : List Char) (lines : List (List Char)) :
    flattenNL (l :: lines) ≠ [] := by
  rw [flattenNL_cons]
  intro h
  exact absurd (congrArg List.length h) (by simp)

/-- `joinNL` of a single line is that line. -/
theorem joinNL_singleton (l : List Char) : joinNL [l] = l := by
  simp [joinNL, List.intercalate]

/-- `joinNL` unfolds one line at a time on lists of at least two lines. -/
theorem joinNL_cons (l : List Char) (p : List (List Char)) (hp : p ≠ []) :
    joinNL (l :: p) = l ++ nl :: joinNL p := by
  cases p with
  | nil => exact absurd rfl hp
  | cons q t => simp [joinNL, List.intercalate]

/-- `flattenNL` is `joinNL` of the lines with one extra empty line. -/
theorem intercalate_append_nilElem (p : List (List Char)) :
    [nl].intercalate (p ++ [[]]) = flattenNL p := by
  induction p with
  | nil => simp [List.intercalate, flattenNL]
  | cons l p ih =>
    have hne : p ++ [[]] ≠ ([] : List (List Char)) := by simp
    rw [List.cons_append, show [nl].intercalate ((l :: (p ++ [[]]))) = joinNL (l :: (p ++ [[]])) from rfl,
      joinNL_cons l _ hne, show joinNL (p ++ [[]]) = [nl].intercalate (p ++ [[]]) from rfl, ih,
      flattenNL_cons]

/-! ## Lemmas: one chunk step on a newline-terminated file -/

/-- When the block boundary falls inside the first line (or exactly at its
end), the v2 iteration yields exactly that line as the chunk — the block
plus the read-ahead tail with the newline stripped — and leaves the rest of
the file. -/
theorem oneChunkV2_small (bs : ℕ) (l f : List Char) (hbs : bs ≤ l.length)
    (hnl : nl ∉ l) : oneChunkV2 bs (l ++ nl :: f) = (l, f) := by
  have hall : ∀ a ∈ l.drop bs, (fun x => decide (x ≠ nl)) a = true := by
    intro a ha
    simp only [decide_eq_true_eq]
    intro h
    exact hnl (h ▸ List.mem_of_mem_drop ha)
  unfold oneChunkV2
  simp only [List.take_append_eq_append_take, List.drop_append_eq_append_drop,
    Nat.sub_eq_zero_of_le hbs, List.take_zero, List.append_nil, List.drop_zero]
  rw [dropWhile_append_all _ _ _ hall, takeWhile_append_all _ _ _ hall]
  simp [List.dropWhile_cons, List.takeWhile_cons, List.take_append_drop]

/-- Same boundary case for the naive iteration: the chunk keeps the
newline. -/
theorem oneChunkNaive_small (bs : ℕ) (l f : List Char) (hbs : bs ≤ l.length)
    (hnl : nl ∉ l) : oneChunkNaive bs (l ++ nl :: f) = (l ++ [nl], f) := by
  have hall : ∀ a ∈ l.drop bs, (fun x => decide (x ≠ nl)) a = true := by
    intro a ha
    simp only [decide_eq_true_eq]
    intro h
    exact hnl (h ▸ List.mem_of_mem_drop ha)
  unfold oneChunkNaive
  simp only [List.take_append_eq_append_take, List.drop_append_eq_append_drop,
    Nat.sub_eq_zero_of_le hbs, List.take_zero, List.append_nil, List.drop_zero]
  rw [dropWhile_append_all _ _ _ hall, takeWhile_append_all _ _ _ hall]
  simp [List.dropWhile_cons, List.takeWhile_cons, List.take_append_drop]

/-- When the block extends past the first line and its newline, the v2
iteration is the same iteration on the remaining file with a smaller block,
prefixed by the first line and its newline. -/
theorem oneChunkV2_consLine (bs : ℕ) (l f : List Char) (hbs : l.length + 1 ≤ bs) :
    oneChunkV2 bs (l ++ nl :: f) =
      (l ++ nl :: (oneChunkV2 (bs - l.length - 1) f).1,
       (oneChunkV2 (bs - l.length - 1) f).2) := by
  obtain ⟨k, hk⟩ : ∃ k, bs - l.length = k + 1 := ⟨bs - l.length - 1, by omega⟩
  have hk' : bs - l.length - 1 = k := by omega
  have h1 : (l ++ nl :: f).take bs = l ++ nl :: f.take k := by
    rw [List.take_append_eq_append_take, List.take_of_length_le (by omega), hk,
      List.take_succ_cons]
  have h2 : (l ++ nl :: f).drop bs = f.drop k := by
    rw [List.drop_append_eq_append_drop, List.drop_eq_nil_of_le (by omega), hk,
      List.drop_succ_cons, List.nil_append]
  unfold oneChunkV2
  simp only [h1, h2, hk']
  cases hdw : f.drop k |>.dropWhile (fun x => decide (x ≠ nl)) with
  | nil => simp [hdw]
  | cons c after => simp [hdw]

/-- Same composition for the naive iteration. -/
theorem oneChunkNaive_consLine (bs : ℕ) (l f : List Char) (hbs : l.length + 1 ≤ bs) :
    oneChunkNaive bs (l ++ nl :: f) =
      (l ++ nl :: (oneChunkNaive (bs - l.length - 1) f).1,
       (oneChunkNaive (bs - l.length - 1) f).2) := by
  obtain ⟨k, hk⟩ : ∃ k, bs - l.length = k + 1 := ⟨bs - l.length - 1, by omega⟩
  have hk' : bs - l.length - 1 = k := by omega
  have h1 : (l ++ nl :: f).take bs = l ++ nl :: f.take k := by
    rw [List.take_append_eq_append_take, List.take_of_length_le (by omega), hk,
      List.take_succ_cons]
  have h2 : (l ++ nl :: f).drop bs = f.drop k := by
    rw [List.drop_append_eq_append_drop, List.drop_eq_nil_of_le (by omega), hk,
      List.drop_succ_cons, List.nil_append]
  unfold oneChunkNaive
  simp only [h1, h2, hk']
  cases hdw : f.drop k |>.dropWhile (fun x => decide (x ≠ nl)) with
  | nil => simp [hdw]
  | cons c after => simp [hdw]

/-- One v2 loop iteration on a newline-terminated file of good lines
consumes a non-empty prefix of the lines, producing it as the chunk (with
or without a trailing newline byte) and leaving exactly the remaining
lines. -/
theorem oneChunkV2_step (bs : ℕ) (l : List Char) (ls : List (List Char))
    (hg : GoodLines (l :: ls)) :
    ∃ pre post, l :: ls = pre ++ post ∧ pre ≠ [] ∧
      ChunkOf (oneChunkV2 bs (flattenNL (l :: ls))).1 pre ∧
      (oneChunkV2 bs (flattenNL (l :: ls))).2 = flattenNL post := by
  induction ls generalizing bs l with
  | nil =>
    rw [flattenNL_cons]
    by_cases hbs : bs ≤ l.length
    · rw [show flattenNL [] = [] from rfl, oneChunkV2_small bs l [] hbs (hg l (by simp)).2]
      exact ⟨[l], [], by simp, by simp, Or.inl (joinNL_singleton l).symm, rfl⟩
    · rw [show flattenNL [] = [] from rfl,
        oneChunkV2_consLine bs l [] (by omega)]
      refine ⟨[l], [], by simp, by simp, Or.inr ?_, by simp [oneChunkV2, flattenNL]⟩
      simp [oneChunkV2, flattenNL]
  | cons l2 ls2 ih =>
    rw [flattenNL_cons]
    by_cases hbs : bs ≤ l.length
    · rw [oneChunkV2_small bs l _ hbs (hg l (by simp)).2]
      exact ⟨[l], l2 :: ls2, by simp, by simp, Or.inl (joinNL_singleton l).symm, rfl⟩
    · rw [oneChunkV2_consLine bs l _ (by omega)]
      obtain ⟨pre, post, hsplit, hpre, hchunk, hrest⟩ :=
        ih (bs - l.length - 1) l2 (fun x hx => hg x (by simp [hx]))
      refine ⟨l :: pre, post, by rw [List.cons_append, ← hsplit], by simp, ?_, hrest⟩
      rcases hchunk with hc | hc
      · refine Or.inl ?_
        rw [joinNL_cons l pre hpre, ← hc]
      · refine Or.inr ?_
        rw [flattenNL_cons l pre, ← hc]

/-- Same for one naive loop iteration; the chunk always keeps its trailing
newline byte. -/
theorem oneChunkNaive_step (bs : ℕ) (l : List Char) (ls : List (List Char))
    (hg : GoodLines (l :: ls)) :
    ∃ pre post, l :: ls = pre ++ post ∧ pre ≠ [] ∧
      ChunkOf (oneChunkNaive bs (flattenNL (l :: ls))).1 pre ∧
      (oneChunkNaive bs (flattenNL (l :: ls))).2 = flattenNL post := by
  induction ls generalizing bs l with
  | nil =>
    rw [flattenNL_cons]
    by_cases hbs : bs ≤ l.length
    · rw [show flattenNL [] = [] from rfl, oneChunkNaive_small bs l [] hbs (hg l (by simp)).2]
      exact ⟨[l], [], by simp, by simp, Or.inr (by simp [flattenNL]), rfl⟩
    · rw [show flattenNL [] = [] from rfl,
        oneChunkNaive_consLine bs l [] (by omega)]
      refine ⟨[l], [], by simp, by simp, Or.inr ?_, by simp [oneChunkNaive, flattenNL]⟩
      simp [oneChunkNaive, flattenNL]
  | cons l2 ls2 ih =>
    rw [flattenNL_cons]
    by_cases hbs : bs ≤ l.length
    · rw [oneChunkNaive_small bs l _ hbs (hg l (by simp)).2]
      exact ⟨[l], l2 :: ls2, by simp, by simp, Or.inr (by simp [flattenNL]), rfl⟩
    · rw [oneChunkNaive_consLine bs l _ (by omega)]
      obtain ⟨pre, post, hsplit, hpre, hchunk, hrest⟩ :=
        ih (bs - l.length - 1) l2 (fun x hx => hg x (by simp [hx]))
      refine ⟨l :: pre, post, by rw [List.cons_append, ← hsplit], by simp, ?_, hrest⟩
      rcases hchunk with hc | hc
      · refine Or.inl ?_
        rw [joinNL_cons l pre hpre, ← hc]
      · refine Or.inr ?_
        rw [flattenNL_cons l pre, ← hc]

/-- The chunks read from a newline-terminated file of good lines partition
the lines: some concatenation of non-empty line blocks reproduces the file's
lines, and each chunk carries exactly one block.  Generic in the chunker so
that it applies to both implementations. -/
theorem chunksPartition (one : ℕ → List Char → List Char × List Char)
    (hstep : ∀ bs l ls, GoodLines (l :: ls) → ∃ pre post,
      l :: ls = pre ++ post ∧ pre ≠ [] ∧
      ChunkOf (one bs (flattenNL (l :: ls))).1 pre ∧
      (one bs (flattenNL (l :: ls))).2 = flattenNL post)
    (read : ℕ → List Char → List (List Char))
    (hnil : ∀ bs, read bs [] = [])
    (hcons : ∀ bs input, input ≠ [] →
      read bs input = (one bs input).1 :: read bs (one bs input).2)
    (lines : List (List Char)) (bs : ℕ) (hg : GoodLines lines) :
    ∃ P : List (List (List Char)), P.flatten = lines ∧ (∀ p ∈ P, p ≠ []) ∧
      List.Forall₂ ChunkOf (read bs (flattenNL lines)) P := by
  match lines with
  | [] =>
    refine ⟨[], by simp, by simp, ?_⟩
    rw [show flattenNL [] = [] from rfl, hnil]
    constructor
  | l :: ls =>
    rw [hcons bs _ (flattenNL_ne_nil l ls)]
    obtain ⟨pre, post, hsplit, hpre, hchunk, hrest⟩ := hstep bs l ls hg
    have hpost : post.length < (l :: ls).length := by
      have := congrArg List.length hsplit
      simp only [List.length_append] at this
      have : pre.length ≠ 0 := fun h0 => hpre (List.length_eq_zero.mp h0)
      omega
    have hg' : GoodLines post := fun x hx => hg x (by rw [hsplit]; exact List.mem_append_right pre hx)
    obtain ⟨P, hflat, hP, hrel⟩ := chunksPartition one hstep read hnil hcons post bs hg'
    refine ⟨pre :: P, ?_, ?_, ?_⟩
    · simp [hflat, ← hsplit]
    · intro p hp
      rcases List.mem_cons.mp hp with h | h
      · exact h ▸ hpre
      · exact hP p h
    · rw [hrest]
      exact List.Forall₂.cons hchunk hrel
termination_by lines.length
decreasing_by exact hpost

/-! ## Lemmas: per-chunk line processing -/

/-- Splitting `joinNL` recovers the lines (at least one line, none
containing a newline). -/
theorem splitOn_joinNL (p : List (List Char)) (hp : p ≠ [])
    (h : ∀ l ∈ p, nl ∉ l) : (joinNL p).splitOn nl = p :=
  List.splitOn_intercalate _ nl h hp

/-- Splitting `flattenNL` gives the lines plus one trailing empty line. -/
theorem splitOn_flattenNL (p : List (List Char)) (h : ∀ l ∈ p, nl ∉ l) :
    (flattenNL p).splitOn nl = p ++ [[]] := by
  rw [← intercalate_append_nilElem]
  refine List.splitOn_intercalate _ nl ?_ (by simp)
  intro l hl
  rcases List.mem_append.mp hl with h' | h'
  · exact h l h'
  · simp only [List.mem_singleton] at h'
    simp [h']

/-- A trailing empty line does not change what the line loop processes. -/
theorem processLinesE_append_nilLine (ls : List (List Char)) :
    processLinesE (ls ++ [[]]) = processLinesE ls := by
  induction ls with
  | nil => rfl
  | cons l ls ih =>
    by_cases hl : l = []
    · simp [processLinesE, hl]
    · simp only [List.cons_append, processLinesE, if_neg hl]
      cases NewMeasurement l with
      | none => rfl
      | some m => simp [ih]

/-- On well-formed lines the loop never stops early: it applies exactly the
parsed measurements of all lines and reports nothing. -/
theorem processLinesE_wf (ls : List (List Char))
    (h : ∀ l ∈ ls, l ≠ [] ∧ (NewMeasurement l).isSome) :
    processLinesE ls = (ls.filterMap NewMeasurement, false) := by
  induction ls with
  | nil => rfl
  | cons l ls ih =>
    obtain ⟨hne, hsome⟩ := h l (by simp)
    obtain ⟨m, hm⟩ := Option.isSome_iff_exists.mp hsome
    simp only [processLinesE, if_neg hne, hm, List.filterMap_cons, ih (fun x hx => h x (by simp [hx]))]

/-- The measurements a chunk contributes, for a chunk carrying the
well-formed line block `p`. -/
theorem chunkMeasurements_of_chunkOf (c : List Char) (p : List (List Char))
    (hco : ChunkOf c p) (hp : p ≠ []) (hw : ∀ l ∈ p, WFLine l) :
    chunkMeasurements c = p.filterMap NewMeasurement := by
  have hnl : ∀ l ∈ p, nl ∉ l := fun l hl => (hw l hl).2.1
  have hwf : ∀ l ∈ p, l ≠ [] ∧ (NewMeasurement l).isSome :=
    fun l hl => ⟨(hw l hl).1, (hw l hl).2.2⟩
  rcases hco with hc | hc
  · rw [chunkMeasurements, hc, splitOn_joinNL p hp hnl, processLines, processLinesE_wf p hwf]
  · rw [chunkMeasurements, hc, splitOn_flattenNL p hnl, processLines,
      processLinesE_append_nilLine, processLinesE_wf p hwf]

/-- The non-empty lines a chunk contains, for a chunk carrying the good
line block `p`. -/
theorem chunkLines_of_chunkOf (c : List Char) (p : List (List Char))
    (hco : ChunkOf c p) (hp : p ≠ []) (hg : ∀ l ∈ p, GoodLine l) :
    chunkLines c = p := by
  have hnl : ∀ l ∈ p, nl ∉ l := fun l hl => (hg l hl).2
  have hfilter : p.filter (fun l => !l.isEmpty) = p := by
    refine List.filter_eq_self.mpr ?_
    intro l hl
    simp [List.isEmpty_iff, (hg l hl).1]
  rcases hco with hc | hc
  · rw [chunkLines, hc, splitOn_joinNL p hp hnl, hfilter]
  · rw [chunkLines, hc, splitOn_flattenNL p hnl, List.filter_append, hfilter]
    simp

/-- Summing chunk measurement lists over a partition. -/
theorem flatMap_chunkMeasurements (cs : List (List Char))
    (P : List (List (List Char))) (hrel : List.Forall₂ ChunkOf cs P)
    (h : ∀ p ∈ P, p ≠ [] ∧ ∀ l ∈ p, WFLine l) :
    cs.flatMap chunkMeasurements = P.flatten.filterMap NewMeasurement := by
  induction hrel with
  | nil => rfl
  | cons hco hrel ih =>
    rename_i c p cs' P'
    obtain ⟨hp, hw⟩ := h p (by simp)
    rw [List.flatMap_cons, List.flatten_cons, List.filterMap_append,
      chunkMeasurements_of_chunkOf c p hco hp hw, ih (fun q hq => h q (by simp [hq]))]

/-- Summing chunk line lists over a partition. -/
theorem flatMap_chunkLines (cs : List (List Char))
    (P : List (List (List Char))) (hrel : List.Forall₂ ChunkOf cs P)
    (h : ∀ p ∈ P, p ≠ [] ∧ ∀ l ∈ p, GoodLine l) :
    cs.flatMap chunkLines = P.flatten := by
  induction hrel with
  | nil => rfl
  | cons hco hrel ih =>
    rename_i c p cs' P'
    obtain ⟨hp, hg⟩ := h p (by simp)
    rw [List.flatMap_cons, List.flatten_cons,
      chunkLines_of_chunkOf c p hco hp hg, ih (fun q hq => h q (by simp [hq]))]

/-! ## Lemmas: end-to-end pipeline on well-formed terminated input -/

/-- `readChunksV2` satisfies the partition property. -/
theorem readChunksV2_partition (lines : List (List Char)) (bs : ℕ)
    (hg : GoodLines lines) :
    ∃ P : List (List (List Char)), P.flatten = lines ∧ (∀ p ∈ P, p ≠ []) ∧
      List.Forall₂ ChunkOf (readChunksV2 bs (flattenNL lines)) P :=
  chunksPartition oneChunkV2 oneChunkV2_step readChunksV2 (fun _ => rfl)
    readChunksV2_cons lines bs hg

/-- `readChunksNaive` satisfies the partition property. -/
theorem readChunksNaive_partition (lines : List (List Char)) (bs : ℕ)
    (hg : GoodLines lines) :
    ∃ P : List (List (List Char)), P.flatten = lines ∧ (∀ p ∈ P, p ≠ []) ∧
      List.Forall₂ ChunkOf (readChunksNaive bs (flattenNL lines)) P :=
  chunksPartition oneChunkNaive oneChunkNaive_step readChunksNaive (fun _ => rfl)
    readChunksNaive_cons lines bs hg

/-- On a newline-terminated well-formed file, the v2 pipeline applies
exactly the parses of all lines, in file order, for every buffer size. -/
theorem runMeasurementsV2_wf (bs : ℕ) (lines : List (List Char))
    (hwf : WFLines lines) :
    runMeasurementsV2 bs (flattenNL lines) = lines.filterMap NewMeasurement := by
  obtain ⟨P, hflat, hne, hrel⟩ :=
    readChunksV2_partition lines bs (fun l hl => ⟨(hwf l hl).1, (hwf l hl).2.1⟩)
  rw [runMeasurementsV2, flatMap_chunkMeasurements _ P hrel, hflat]
  intro p hp
  exact ⟨hne p hp, fun l hl => hwf l (hflat ▸ List.mem_flatten.mpr ⟨p, hp, hl⟩)⟩

/-- Same for the naive pipeline. -/
theorem runMeasurementsNaive_wf (bs : ℕ) (lines : List (List Char))
    (hwf : WFLines lines) :
    runMeasurementsNaive bs (flattenNL lines) = lines.filterMap NewMeasurement := by
  obtain ⟨P, hflat, hne, hrel⟩ :=
    readChunksNaive_partition lines bs (fun l hl => ⟨(hwf l hl).1, (hwf l hl).2.1⟩)
  rw [runMeasurementsNaive, flatMap_chunkMeasurements _ P hrel, hflat]
  intro p hp
  exact ⟨hne p hp, fun l hl => hwf l (hflat ▸ List.mem_flatten.mpr ⟨p, hp, hl⟩)⟩

/-! ## Lemmas: per-key counting -/

/-- Lookup after a store. -/
theorem lookupStats_storeStats (m : AssocStats) (k k' : List Char)
    (v : StationStats) :
    lookupStats (storeStats m k v) k' =
      if k = k' then some v else lookupStats m k' := by
  induction m with
  | nil => simp [storeStats, lookupStats]
  | cons e m ih =>
    obtain ⟨k0, v0⟩ := e
    by_cases h0 : k0 = k
    · subst h0
      simp only [storeStats, if_pos rfl, lookupStats]
      by_cases h1 : k0 = k'
      · simp [h1]
      · simp [h1]
    · simp only [storeStats, if_neg h0, lookupStats, ih]
      by_cases h1 : k0 = k'
      · subst h1
        rw [if_pos rfl, if_neg (fun h => h0 h.symm), if_pos rfl]
      · simp [h1]

/-- One `Set` call increments exactly the count of its own station. -/
theorem countOfKey_statsMapSet (m : AssocStats) (msr : Measurement)
    (k : List Char) :
    countOfKey (statsMapSet m msr) k =
      countOfKey m k + (if msr.Station = k then 1 else 0) := by
  unfold statsMapSet countOfKey
  rw [lookupStats_storeStats]
  by_cases h : msr.Station = k
  · subst h
    rw [if_pos rfl, if_pos rfl]
    cases hl : lookupStats m msr.Station with
    | none => simp [applyValue, NewStationStats]
    | some s => simp [applyValue]
  · rw [if_neg h, if_neg h, add_zero]

/-- Folding a measurement list over the map: the count of each key is the
number of applied measurements carrying it. -/
theorem countOfKey_foldl (ms : List Measurement) (m : AssocStats)
    (k : List Char) :
    countOfKey (ms.foldl statsMapSet m) k =
      countOfKey m k + ((ms.filter (fun x => decide (x.Station = k))).length : ℤ) := by
  induction ms generalizing m with
  | nil => simp
  | cons msr ms ih =>
    rw [List.foldl_cons, ih, countOfKey_statsMapSet]
    simp only [List.filter_cons]
    by_cases h : msr.Station = k
    · simp [h]
      omega
    · simp [h]

/-! ## Lemmas: rounding -/

/-- Half-to-even rounding is the identity on integers. -/
theorem roundHalfEven_intCast (n : ℤ) : roundHalfEven (n : ℚ) = n := by
  unfold roundHalfEven
  rw [Int.floor_intCast]
  norm_num

/-! ## Claim C1 -/

/-- C1: the claim says a fresh `NewStationStats` satisfies `min > v` and
`max < v` for every value `v`, so the first update sets `Min = v` and
`Max = v` even for all-negative data.  The code seeds `Max` with
`math.SmallestNonzeroFloat64`, a tiny positive number, so for the first
value `-5.5` the claimed precondition `max < v` is false, the first update
leaves `Max = 2^(-1074)` instead of `-5.5`, and the spec's own end-to-end
example key `Bulawayo;-5.5` is reported as `-5.5 / -5.5 / 0.0` (slash
separated), max corrupted to `0.0`.  (`Min`, seeded with `math.MaxFloat64`,
does behave as claimed.) -/
theorem C1_sentinel_max_bug :
    (applyValue NewStationStats (.finite (-(11 / 2)))).Min = .finite (-(11 / 2)) ∧
    (applyValue NewStationStats (.finite (-(11 / 2)))).Max = .finite smallestNonzeroFloat64 ∧
    (.finite smallestNonzeroFloat64 : GoFloat) ≠ .finite (-(11 / 2)) ∧
    ¬ smallestNonzeroFloat64 < -(11 / 2 : ℚ) ∧
    ProcessFile 100 (flattenNL ["Bulawayo;-5.5".toList]) = "Bulawayo: -5.5/-5.5/0.0 " := by
  have hpos : (0 : ℚ) < smallestNonzeroFloat64 := by with_unfolding_all decide
  have hle : ¬ smallestNonzeroFloat64 ≤ -(11 / 2 : ℚ) := by with_unfolding_all decide
  refine ⟨by with_unfolding_all decide, ?_, ?_, by with_unfolding_all decide,
    by with_unfolding_all decide⟩
  · simp only [applyValue, NewStationStats, goMax]
    rw [if_neg hle]
  · simp only [ne_eq, GoFloat.finite.injEq]
    intro h
    rw [h] at hpos
    norm_num at hpos

/-! ## Claim C2 -/

/-- C2 counterexample: a valid line after a malformed one in the same chunk
is dropped, contradicting "processing continues with the next line of the
same chunk; all other lines of the input are still aggregated".  The line
`B;2` is well-formed, yet the run aggregates only `A;1`; the failure is
reported. -/
theorem C2_break_cex :
    (NewMeasurement ("B;2".toList)).isSome = true ∧
    runMeasurementsV2 100 ("A;1\nX\nB;2\n".toList) = [⟨"A".toList, .finite 1⟩] ∧
    (processLinesE (("A;1\nX\nB;2\n".toList).splitOn nl)).2 = true := by
  refine ⟨by with_unfolding_all decide, by with_unfolding_all decide, by with_unfolding_all decide⟩

/-- C2 (amended): a malformed line is reported and processing of that chunk
stops at it — the lines of the chunk before the malformed one are applied,
nothing after it in the same chunk is — while other chunks and the run as a
whole continue. -/
theorem C2_malformed_stops_chunk (pre suf : List (List Char)) (bad : List Char)
    (hpre : ∀ l ∈ pre, l ≠ [] ∧ (NewMeasurement l).isSome)
    (hbadne : bad ≠ []) (hbad : NewMeasurement bad = none) :
    processLinesE (pre ++ bad :: suf) = (pre.filterMap NewMeasurement, true) := by
  induction pre with
  | nil => simp [processLinesE, hbadne, hbad]
  | cons l pre ih =>
    obtain ⟨hne, hsome⟩ := hpre l (by simp)
    obtain ⟨m, hm⟩ := Option.isSome_iff_exists.mp hsome
    simp only [List.cons_append, processLinesE, if_neg hne, hm, List.append_eq]
    rw [ih (fun x hx => hpre x (by simp [hx]))]
    simp [List.filterMap_cons, hm]

/-- C2 witness. -/
theorem C2_malformed_stops_chunk_witness :
    processLinesE (["A;1".toList] ++ "X".toList :: ["B;2".toList]) =
      (["A;1".toList].filterMap NewMeasurement, true) :=
  C2_malformed_stops_chunk ["A;1".toList] ["B;2".toList] "X".toList
    (by with_unfolding_all decide) (by with_unfolding_all decide) (by with_unfolding_all decide)

/-! ## Claim C3 -/

/-- C3 counterexample: for the input `A;1\nB;22` (no trailing newline) with
buffer size 5, the block read stops inside the last line; the tail `;22` is
consumed by the read-ahead and discarded, so the only chunk is `A;1\nB`,
the well-formed last record `B;22` is lost, and the chunks do not cover the
input. -/
theorem C3_tail_dropped_cex :
    readChunksV2 5 ("A;1\nB;22".toList) = ["A;1\nB".toList] ∧
    runMeasurementsV2 5 ("A;1\nB;22".toList) = [⟨"A".toList, .finite 1⟩] ∧
    WFLine ("B;22".toList) := by
  refine ⟨by with_unfolding_all decide, by with_unfolding_all decide, by with_unfolding_all decide⟩

/-- C3 (amended): on a newline-terminated input of non-empty terminator-free
lines, the chunks of both implementations carry every line exactly once, in
order; and an unterminated final line survives only when the block read
itself reaches end-of-stream (block size at least the whole remaining
input), in which case the whole input is one chunk. -/
theorem C3_chunk_coverage (lines : List (List Char)) (input : List Char)
    (bs : ℕ) (hbs : 0 < bs) (hg : GoodLines lines) :
    ((readChunksV2 bs (flattenNL lines)).flatMap chunkLines = lines ∧
     (readChunksNaive bs (flattenNL lines)).flatMap chunkLines = lines) ∧
    (input ≠ [] → input.length ≤ bs → readChunksV2 bs input = [input]) := by
  refine ⟨⟨?_, ?_⟩, ?_⟩
  · obtain ⟨P, hflat, hne, hrel⟩ := readChunksV2_partition lines bs hg
    rw [flatMap_chunkLines _ P hrel, hflat]
    intro p hp
    exact ⟨hne p hp, fun l hl => hg l (hflat ▸ List.mem_flatten.mpr ⟨p, hp, hl⟩)⟩
  · obtain ⟨P, hflat, hne, hrel⟩ := readChunksNaive_partition lines bs hg
    rw [flatMap_chunkLines _ P hrel, hflat]
    intro p hp
    exact ⟨hne p hp, fun l hl => hg l (hflat ▸ List.mem_flatten.mpr ⟨p, hp, hl⟩)⟩
  · intro hne hlen
    have h1 : oneChunkV2 bs input = (input, []) := by
      unfold oneChunkV2
      rw [List.take_of_length_le hlen, List.drop_eq_nil_of_le hlen]
      rfl
    rw [readChunksV2_cons bs input hne, h1]
    rfl

/-- C3 witness. -/
theorem C3_chunk_coverage_witness :
    ((readChunksV2 4 (flattenNL ["A;1".toList, "B;2".toList])).flatMap chunkLines
        = ["A;1".toList, "B;2".toList] ∧
     (readChunksNaive 4 (flattenNL ["A;1".toList, "B;2".toList])).flatMap chunkLines
        = ["A;1".toList, "B;2".toList]) ∧
    ("Z;9".toList ≠ [] → ("Z;9".toList).length ≤ 4 →
      readChunksV2 4 ("Z;9".toList) = ["Z;9".toList]) :=
  C3_chunk_coverage ["A;1".toList, "B;2".toList] ("Z;9".toList) 4
    (by with_unfolding_all decide) (by with_unfolding_all decide)

/-! ## Claim C4 -/

/-- C4 counterexample: a key holding two values `2.25` (sum `4.5`,
count `2`, exact in binary floating point) prints `2.3/2.2/2.3`: the mean
slot is `2.2`, not the `2.3` the claim's round-half-away-from-zero rule
demands for a mean of `2.25`; the second conjunct records that half-away
rounding of the true mean `4.5 / 2 = 2.25` would give `23` tenths. -/
theorem C4_mean_rounding_cex :
    statsString ⟨.finite (9 / 4), .finite (9 / 4), .finite (9 / 2), 2⟩ = "2.3/2.2/2.3" ∧
    roundHalfAway ((9 / 2 : ℚ) / 2 * 10) = 23 := by
  refine ⟨by with_unfolding_all decide, by with_unfolding_all decide⟩

/-- C4 (amended): min and max are rounded to one decimal with halves away
from zero (`math.Round(x*10)/10`); the mean, however, is computed from the
*already rounded* sum — `Round(sum*10)/10 / count` — and its final decimal
is produced by `%.1f`, which rounds halves to even.  A mean of `2.25`
therefore prints as `2.2`. -/
theorem C4_rounding_pipeline (mn mx sm : ℚ) (c : ℤ) (hc : c ≠ 0) :
    statsString ⟨.finite mn, .finite mx, .finite sm, c⟩ =
      formatTenths (roundHalfAway (mn * 10)) ++ "/" ++
      formatTenths (roundHalfEven ((roundHalfAway (sm * 10) : ℚ) / 10 / (c : ℚ) * 10)) ++ "/" ++
      formatTenths (roundHalfAway (mx * 10)) := by
  simp only [statsString, goRoundTenths, goDivInt, formatF1, if_neg hc]
  rw [div_mul_cancel₀ _ (by norm_num : (10 : ℚ) ≠ 0),
    div_mul_cancel₀ _ (by norm_num : (10 : ℚ) ≠ 0),
    roundHalfEven_intCast, roundHalfEven_intCast]

/-- C4 witness. -/
theorem C4_rounding_pipeline_witness :
    statsString ⟨.finite 1, .finite 1, .finite 2, 2⟩ =
      formatTenths (roundHalfAway ((1 : ℚ) * 10)) ++ "/" ++
      formatTenths (roundHalfEven ((roundHalfAway ((2 : ℚ) * 10) : ℚ) / 10 / ((2 : ℤ) : ℚ) * 10)) ++ "/" ++
      formatTenths (roundHalfAway ((1 : ℚ) * 10)) :=
  C4_rounding_pipeline 1 1 2 2 (by norm_num)

/-! ## Claim C5 -/

/-- C5 counterexample: for the input `A;1\nB;22` (unterminated last line),
buffer sizes 100 and 5 produce different reports — with size 5 the tail of
the last record is discarded mid-line (see C3), so the B entry is lost. -/
theorem C5_chunk_size_cex :
    ProcessFile 100 ("A;1\nB;22".toList) ≠ ProcessFile 5 ("A;1\nB;22".toList) := by
  with_unfolding_all decide

/-- C5 (amended): on newline-terminated inputs all of whose lines are
well-formed records, the pipeline yields identical per-key aggregates and
byte-identical formatted output for every positive buffer size. -/
theorem C5_chunk_size_invariance (bs1 bs2 : ℕ) (lines : List (List Char))
    (h1 : 0 < bs1) (h2 : 0 < bs2) (hwf : WFLines lines) :
    ProcessFile bs1 (flattenNL lines) = ProcessFile bs2 (flattenNL lines) := by
  unfold ProcessFile runStatsV2
  rw [runMeasurementsV2_wf bs1 lines hwf, runMeasurementsV2_wf bs2 lines hwf]

/-- C5 witness. -/
theorem C5_chunk_size_invariance_witness :
    ProcessFile 1 (flattenNL ["A;1".toList, "B;2".toList]) =
      ProcessFile 100 (flattenNL ["A;1".toList, "B;2".toList]) :=
  C5_chunk_size_invariance 1 100 ["A;1".toList, "B;2".toList]
    (by norm_num) (by norm_num) (by with_unfolding_all decide)

/-! ## Claim C6 -/

/-- C6: on a valid (newline-terminated, all lines well-formed) input, the
count reported for each key equals the number of successfully parsed lines
carrying that key, for every buffer size; lines that fail to parse are
never counted (only `filterMap NewMeasurement` successes appear). -/
theorem C6_count_correct (bs : ℕ) (lines : List (List Char)) (k : List Char)
    (hwf : WFLines lines) :
    countOfKey (runStatsV2 bs (flattenNL lines)) k =
      (((lines.filterMap NewMeasurement).filter
        (fun m => decide (m.Station = k))).length : ℤ) := by
  unfold runStatsV2
  rw [runMeasurementsV2_wf bs lines hwf, countOfKey_foldl]
  simp [countOfKey, lookupStats]

/-- C6 witness. -/
theorem C6_count_correct_witness :
    countOfKey (runStatsV2 3 (flattenNL ["A;1".toList, "B;2".toList, "A;3".toList]))
        ("A".toList) =
      ((((["A;1".toList, "B;2".toList, "A;3".toList]).filterMap NewMeasurement).filter
        (fun m => decide (m.Station = "A".toList))).length : ℤ) :=
  C6_count_correct 3 ["A;1".toList, "B;2".toList, "A;3".toList] ("A".toList)
    (by with_unfolding_all decide)

/-! ## Claim C7 -/

/-- C7 counterexample: when the open fails the run still prints a report
line (the empty report), so "aborts producing no output" is false. -/
theorem C7_open_failure_cex :
    (ProcessFileRun none 100).reportPrinted = true ∧
    (ProcessFileRun none 100).reportLine = "" :=
  ⟨rfl, rfl⟩

/-- C7 (amended): if opening the input file fails, the error is reported,
no records are aggregated, but the run does not abort: the read loop fails
immediately (also reported) and the empty report line is still printed. -/
theorem C7_open_failure_behavior (bs : ℕ) :
    ProcessFileRun none bs =
      { openErrorReported := true, readErrorReported := true,
        reportPrinted := true, reportLine := "" } :=
  rfl

/-! ## Claim C8 -/

/-- C8 counterexample: `strconv.ParseFloat` accepts `NaN` and (signed)
`Inf`/`Infinity`, so `NewMeasurement` succeeds on them and the values
propagate into min, max and sum — they are not parse failures as the claim
requires. -/
theorem C8_nan_inf_cex :
    NewMeasurement ("City;NaN".toList) = some ⟨"City".toList, .nan⟩ ∧
    NewMeasurement ("City;Inf".toList) = some ⟨"City".toList, .inf true⟩ ∧
    NewMeasurement ("City;-inf".toList) = some ⟨"City".toList, .inf false⟩ ∧
    (applyValue NewStationStats .nan).Min = .nan ∧
    (applyValue NewStationStats .nan).Sum = .nan := by
  refine ⟨by with_unfolding_all decide, by with_unfolding_all decide,
    by with_unfolding_all decide, by with_unfolding_all decide,
    by with_unfolding_all decide⟩

/-- C8 (amended): `NewMeasurement` succeeds exactly when the line splits on
`';'` into exactly two tokens and the second is accepted by `ParseFloat` —
whose grammar includes the non-finite special forms `Inf`, `Infinity` and
`NaN`, which are therefore not rejected. -/
theorem C8_parse_success_iff (s : List Char) :
    (NewMeasurement s).isSome = true ↔
      ∃ a b, s.splitOn ';' = [a, b] ∧ (parseFloat b).isSome = true := by
  unfold NewMeasurement
  rcases h : s.splitOn ';' with _ | ⟨a, _ | ⟨b, _ | ⟨c, t⟩⟩⟩ <;> simp [h]
  constructor
  · intro hb
    exact ⟨a, b, ⟨rfl, rfl⟩, hb⟩
  · rintro ⟨a1, b1, ⟨ha, hb⟩, hs⟩
    exact hb ▸ hs

/-! ## Claim C9 -/

/-- C9: `StatsMap.Set` is not atomic per key.  Each `Set` is a `LoadOrStore`
followed by a separate unconditional `Store` of the locally updated struct.
Under the interleaving t1.LoadOrStore, t2.LoadOrStore, t1.Store, t2.Store of
two racing `Set` calls on the same (initially absent) key, both threads
complete but the final count is 1: one update is lost, contradicting the
claim (and the code's own comment "use sync map to prevent thread
conflicts"); running the same two calls without interleaving gives
count 2. -/
theorem C9_lost_update (v1 v2 : GoFloat) :
    ((runRace v1 v2 [false, true, false, true]).pc1 = 2 ∧
     (runRace v1 v2 [false, true, false, true]).pc2 = 2 ∧
     (runRace v1 v2 [false, true, false, true]).entry.map StationStats.Count = some 1) ∧
    (runRace v1 v2 [false, false, true, true]).entry.map StationStats.Count = some 2 := by
  refine ⟨⟨rfl, rfl, ?_⟩, ?_⟩ <;>
    simp [runRace, raceStep, loadOrStore, initRace, applyValue, NewStationStats]

/-! ## Claim C10 -/

/-- C10: on newline-terminated inputs all of whose lines are well-formed
records, the naive sequential implementation and the v2 implementation
(modelled sequentially) produce identical formatted output, for any
positive buffer sizes — in particular for their respective 4 KiB and
512 KiB buffers. -/
theorem C10_naive_v2_equiv (bs1 bs2 : ℕ) (lines : List (List Char))
    (h1 : 0 < bs1) (h2 : 0 < bs2) (hwf : WFLines lines) :
    naiveImplementation bs1 (flattenNL lines) = ProcessFile bs2 (flattenNL lines) := by
  unfold naiveImplementation ProcessFile runStatsNaive runStatsV2
  rw [runMeasurementsNaive_wf bs1 lines hwf, runMeasurementsV2_wf bs2 lines hwf]

/-- C10 witness. -/
theorem C10_naive_v2_equiv_witness :
    naiveImplementation 4096 (flattenNL ["A;1".toList, "B;2".toList]) =
      ProcessFile 524288 (flattenNL ["A;1".toList, "B;2".toList]) :=
  C10_naive_v2_equiv 4096 524288 ["A;1".toList, "B;2".toList]
    (by norm_num) (by norm_num) (by with_unfolding_all decide)

/-! ## Certification of the inlined float64 constants -/

/-- The inlined `maxFloat64` numeral is `(2^53 - 1) * 2^971`. -/
theorem maxFloat64_eq : maxFloat64 = (2 ^ 53 - 1) * 2 ^ 971 := by
  norm_num [maxFloat64]

/-- The inlined `smallestNonzeroFloat64` numeral is `2^(-1074)`. -/
theorem smallestNonzeroFloat64_eq : smallestNonzeroFloat64 = 1 / 2 ^ 1074 := by
  norm_num [smallestNonzeroFloat64]
